import Mathlib

/-
Verification of the session relay subsystem of the Flask-SocketIO WebRTC
signaling server (src/app.py).

The server state is the module-level dict `ROOMS : room -> { sid -> {"name": name} }`
together with the Socket.IO server's own room-membership map (mutated by
`join_room` / `leave_room`, read by `emit(..., room=...)`).  Python dicts are
modelled as association lists with unique keys, preserving insertion order
(Python dicts iterate in insertion order, which `handle_leave` relies on).
Event handlers become pure functions `ServerState -> ServerState × List Emit`,
where `Emit` records the literal `emit` calls the handler performs.
-/

set_option maxHeartbeats 1000000

namespace App

/-- A Socket.IO session id (`request.sid`): an opaque string handle. -/
abbrev Handle := String

/-- A Python dict with string keys, modelled as an insertion-ordered
association list (well-formed states have pairwise distinct keys). -/
abbrev Dict (β : Type) := List (String × β)

/-- Dict lookup: `d.get(k)` / `d[k]`. -/
def dictGet {β : Type} (d : Dict β) (k : String) : Option β :=
  match d with
  | [] => none
  | (k', v) :: rest => if k' = k then some v else dictGet rest k

/-- Dict assignment `d[k] = v`: updates the entry in place if the key is
present (keeping its position, as Python does), else appends it at the end. -/
def dictSet {β : Type} (d : Dict β) (k : String) (v : β) : Dict β :=
  match d with
  | [] => [(k, v)]
  | (k', v') :: rest => if k' = k then (k, v) :: rest else (k', v') :: dictSet rest k v

/-- Dict deletion `del d[k]`: removes the first entry with key `k`. -/
def dictDel {β : Type} (d : Dict β) (k : String) : Dict β :=
  match d with
  | [] => []
  | (k', v') :: rest => if k' = k then rest else (k', v') :: dictDel rest k

/-- The payloads the server emits (src/app.py lines 254, 268, 271, 282, 310). -/
inductive Payload where
  | errorP (msg : String)
  | joinedP (peers : List (Handle × String)) (you : Handle × String) (room : String)
  | newParticipantP (sid : Handle) (name : String)
  | participantLeftP (sid : Handle) (name : String)
  | signalP (sender : Handle) (sig : String)
deriving DecidableEq, Repr

/-- One `emit` call: either directly to the requesting connection, or to a
Socket.IO room (`include_self=False` sets `includeSelf := false`). -/
inductive Emit where
  | toCaller (event : String) (payload : Payload)
  | toRoom (event : String) (payload : Payload) (room : String) (includeSelf : Bool)
deriving DecidableEq, Repr

/-- Server state: the module-level `ROOMS` dict (room -> sid -> display name;
the `{"name": name}` record is just the name) plus the Socket.IO server's
room-membership map (room name -> member sids; each live connection is also
in a personal room named by its own sid). -/
structure ServerState where
  ROOMS : Dict (Dict String)
  sioRooms : Dict (List Handle)
deriving DecidableEq, Repr

/-- Socket.IO `join_room`: add the sid to the room's member list. -/
def join_room (sio : Dict (List Handle)) (room : String) (sid : Handle) : Dict (List Handle) :=
  let cur := (dictGet sio room).getD []
  if sid ∈ cur then sio else dictSet sio room (cur ++ [sid])

/-- Socket.IO `leave_room`: remove the sid from the room's member list. -/
def leave_room (sio : Dict (List Handle)) (room : String) (sid : Handle) : Dict (List Handle) :=
  match dictGet sio room with
  | none => sio
  | some cur => dictSet sio room (cur.filter (fun h => h ≠ sid))

/-- `data.get('name') or 'Anonymous'` (line 251): a missing or falsy (empty)
name becomes `"Anonymous"`. -/
def resolveName (name : Option String) : String :=
  match name with
  | none => "Anonymous"
  | some n => if n = "" then "Anonymous" else n

/-- Python truthiness test `not x` for an optional string field. -/
def falsyStr (o : Option String) : Bool :=
  match o with
  | none => true
  | some s => s = ""

/-- `handle_join` (src/app.py lines 248-271).  Rejects a falsy room with an
`error` emit; otherwise snapshots the room's members, registers the joiner,
joins the Socket.IO room, replies `joined` and broadcasts `new-participant`
to the room excluding the caller. -/
def handle_join (st : ServerState) (sid : Handle) (room : Option String)
    (name : Option String) : ServerState × List Emit :=
  let nm := resolveName name
  match room with
  | none => (st, [Emit.toCaller "error" (Payload.errorP "no room specified")])
  | some r =>
    if r = "" then
      (st, [Emit.toCaller "error" (Payload.errorP "no room specified")])
    else
      let members := (dictGet st.ROOMS r).getD []
      let existing := members
      ({ ROOMS := dictSet st.ROOMS r (dictSet members sid nm),
         sioRooms := join_room st.sioRooms r sid },
       [Emit.toCaller "joined" (Payload.joinedP existing (sid, nm) r),
        Emit.toRoom "new-participant" (Payload.newParticipantP sid nm) r false])

/-- `for room, members in list(ROOMS.items()): if sid in members: ... break`:
the first room (in insertion order) whose member dict contains `sid`. -/
def findRoomOf (rooms : Dict (Dict String)) (sid : Handle) : Option (String × Dict String) :=
  rooms.find? (fun p => (dictGet p.2 sid).isSome)

/-- `handle_leave` (src/app.py lines 273-285).  Finds the first room containing
the caller's sid, removes the sid from it (deleting the room entry if it
becomes empty), leaves the Socket.IO room and broadcasts `participant-left`;
does nothing when no room contains the sid. -/
def handle_leave (st : ServerState) (sid : Handle) : ServerState × List Emit :=
  match findRoomOf st.ROOMS sid with
  | none => (st, [])
  | some (r, members) =>
    let nm := (dictGet members sid).getD ""
    let members' := dictDel members sid
    ({ ROOMS := if members'.length = 0 then dictDel st.ROOMS r
                else dictSet st.ROOMS r members',
       sioRooms := leave_room st.sioRooms r sid },
     [Emit.toRoom "participant-left" (Payload.participantLeftP sid nm) r true])

/-- `handle_disconnect` (src/app.py lines 287-299): a verbatim copy of the
`leave` handler's body ("# same as leave"). -/
def handle_disconnect (st : ServerState) (sid : Handle) : ServerState × List Emit :=
  match findRoomOf st.ROOMS sid with
  | none => (st, [])
  | some (r, members) =>
    let nm := (dictGet members sid).getD ""
    let members' := dictDel members sid
    ({ ROOMS := if members'.length = 0 then dictDel st.ROOMS r
                else dictSet st.ROOMS r members',
       sioRooms := leave_room st.sioRooms r sid },
     [Emit.toRoom "participant-left" (Payload.participantLeftP sid nm) r true])

/-- `handle_signal` (src/app.py lines 301-310).  A falsy `to` or `signal`
field returns silently; otherwise the payload, tagged with the sender's sid,
is emitted to the Socket.IO room named by the target sid (each live
connection's personal room). -/
def handle_signal (st : ServerState) (sid : Handle) (toH : Option String)
    (sig : Option String) : ServerState × List Emit :=
  if falsyStr toH || falsyStr sig then (st, [])
  else
    (st, [Emit.toRoom "signal" (Payload.signalP sid (sig.getD "")) (toH.getD "") true])

/-- Members of a Socket.IO room (empty for an unknown room name). -/
def sioMembers (sio : Dict (List Handle)) (r : String) : List Handle :=
  (dictGet sio r).getD []

/-- Whether the connection `h` receives a given emit performed while `caller`
was the requesting sid: direct emits go to the caller; room emits go to the
room's current Socket.IO members, minus the caller when `includeSelf` is off. -/
def receives (sio : Dict (List Handle)) (caller h : Handle) : Emit → Bool
  | Emit.toCaller _ _ => h == caller
  | Emit.toRoom _ _ r includeSelf =>
      decide (h ∈ sioMembers sio r) && (includeSelf || !(h == caller))

/-- The emits of a handler run that connection `h` receives, delivery being
resolved against the handler's final Socket.IO membership (all `join_room` /
`leave_room` calls in every handler precede its `emit` calls). -/
def deliveredTo (st : ServerState) (caller : Handle) (es : List Emit) (h : Handle) :
    List Emit :=
  es.filter (receives st.sioRooms caller h)

/-- The payloads of `joined` replies sent directly to the caller. -/
def joinedReplies (es : List Emit) : List Payload :=
  es.filterMap (fun e =>
    match e with
    | Emit.toCaller ev p => if ev = "joined" then some p else none
    | _ => none)

/-- `sid` is registered in room `r` of the registry. -/
def memberOf (rooms : Dict (Dict String)) (sid : Handle) (r : String) : Bool :=
  match dictGet rooms r with
  | none => false
  | some m => (dictGet m sid).isSome

/-- The rooms (in insertion order) whose member dict contains `sid`. -/
def roomsContaining (rooms : Dict (Dict String)) (sid : Handle) : List String :=
  (rooms.filter (fun p => (dictGet p.2 sid).isSome)).map Prod.fst

/-- Well-formedness of a state as the image of Python dicts: the registry's
keys are pairwise distinct and so are each room's member sids. -/
def wfRooms (rooms : Dict (Dict String)) : Prop :=
  (rooms.map Prod.fst).Nodup ∧ ∀ p ∈ rooms, (p.2.map Prod.fst).Nodup

instance (rooms : Dict (Dict String)) : Decidable (wfRooms rooms) := by
  unfold wfRooms; infer_instance

/-- The room-existence invariant: every room key present in the registry has a
non-empty participant dict (absent keys have no participants at all). -/
def roomsInv (rooms : Dict (Dict String)) : Prop :=
  ∀ p ∈ rooms, p.2 ≠ []

instance (rooms : Dict (Dict String)) : Decidable (roomsInv rooms) := by
  unfold roomsInv; infer_instance


/-- The session handle occurs in at most one room of the registry. -/
def atMostOneRoom (rooms : Dict (Dict String)) (sid : Handle) : Prop :=
  (rooms.filter (fun p => (dictGet p.2 sid).isSome)).length ≤ 1

instance (rooms : Dict (Dict String)) (sid : Handle) :
    Decidable (atMostOneRoom rooms sid) := by
  unfold atMostOneRoom; infer_instance

/-- Modelled from the spec: the store-and-forward ChunkStore variant is absent
from src/ (src/app.py is the push-relay variant), so its chunk record
`{timestamp, room, producerName, producerClientId, mimeType, payloadBytes}`
is modelled from the spec's data model (the room is the store's key). -/
structure Chunk where
  ts : Nat
  user : String
  cid : String
  mime : String
  payloadBytes : List Nat
deriving DecidableEq, Repr

/-- Modelled from the spec: the per-room capacity enforcement of ChunkStore
`append` — "evicting the oldest chunk(s) first (ring-buffer semantics: always
keep the most recent N)": the new chunk is appended at the end and any excess
over the cap is dropped from the front (the oldest side). -/
def room_append (cap : Nat) (l : List Chunk) (c : Chunk) : List Chunk :=
  (l ++ [c]).drop ((l.length + 1) - cap)

/-- Modelled from the spec: one ChunkStore `append` against the room-keyed
store. -/
def chunk_append (cap : Nat) (store : Dict (List Chunk)) (room : String)
    (c : Chunk) : Dict (List Chunk) :=
  dictSet store room (room_append cap ((dictGet store room).getD []) c)

/-- A sequence of ChunkStore appends to a single room. -/
def append_all (cap : Nat) (store : Dict (List Chunk)) (room : String)
    (cs : List Chunk) : Dict (List Chunk) :=
  cs.foldl (fun s c => chunk_append cap s room c) store



/-- The prior-members list carried by a `joined` payload. -/
def peersOf (p : Payload) : List (Handle × String) :=
  match p with
  | Payload.joinedP peers _ _ => peers
  | _ => []


end App

namespace App

@[simp]
theorem dictGet_nil {β : Type} (k : String) : dictGet ([] : Dict β) k = none := rfl

theorem dictGet_dictSet_self {β : Type} (d : Dict β) (k : String) (v : β) :
    dictGet (dictSet d k v) k = some v := by
  induction d with
  | nil => simp [dictSet, dictGet]
  | cons p rest ih =>
    by_cases h : p.1 = k
    · simp [dictSet, dictGet, h]
    · simp [dictSet, dictGet, h, ih]

theorem dictGet_dictSet_ne {β : Type} (d : Dict β) (k k' : String) (v : β)
    (h : k' ≠ k) : dictGet (dictSet d k v) k' = dictGet d k' := by
  have h' : ¬ k = k' := Ne.symm h
  induction d with
  | nil => simp [dictSet, dictGet, h']
  | cons p rest ih =>
    by_cases hp : p.1 = k
    · subst hp
      simp [dictSet, dictGet, h']
    · by_cases hp' : p.1 = k'
      · subst hp'
        simp [dictSet, dictGet, hp, dictGet]
      · simp [dictSet, dictGet, hp, hp', ih]

theorem dictGet_dictDel_ne {β : Type} (d : Dict β) (k k' : String)
    (h : k' ≠ k) : dictGet (dictDel d k) k' = dictGet d k' := by
  have h' : ¬ k = k' := Ne.symm h
  induction d with
  | nil => simp [dictDel]
  | cons p rest ih =>
    by_cases hp : p.1 = k
    · subst hp
      simp [dictDel, dictGet, h']
    · by_cases hp' : p.1 = k'
      · subst hp'
        simp [dictDel, dictGet, hp]
      · simp [dictDel, dictGet, hp, hp', ih]

theorem dictGet_mem_keys {β : Type} (d : Dict β) (k : String) (v : β)
    (h : dictGet d k = some v) : k ∈ d.map Prod.fst := by
  induction d with
  | nil => simp [dictGet] at h
  | cons p rest ih =>
    by_cases hp : p.1 = k
    · simp [hp.symm]
    · simp only [dictGet, if_neg hp] at h
      simp [ih h]

theorem dictGet_dictDel_self {β : Type} (d : Dict β) (k : String)
    (hnd : (d.map Prod.fst).Nodup) : dictGet (dictDel d k) k = none := by
  induction d with
  | nil => simp [dictDel]
  | cons p rest ih =>
    simp only [List.map_cons, List.nodup_cons] at hnd
    by_cases hp : p.1 = k
    · subst hp
      simp only [dictDel, if_pos rfl]
      rcases h : dictGet rest p.1 with _ | v
      · exact h
      · exact absurd (dictGet_mem_keys rest p.1 v h) hnd.1
    · simp [dictDel, dictGet, hp, ih hnd.2]

end App

namespace App

theorem mem_dictSet {β : Type} {d : Dict β} {k : String} {v : β} {p : String × β}
    (h : p ∈ dictSet d k v) : p ∈ d ∨ p = (k, v) := by
  induction d with
  | nil => simp [dictSet] at h; simp [h]
  | cons q rest ih =>
    by_cases hq : q.1 = k
    · simp only [dictSet, if_pos hq, List.mem_cons] at h
      rcases h with h | h
      · exact Or.inr h
      · exact Or.inl (List.mem_cons_of_mem _ h)
    · simp only [dictSet, if_neg hq, List.mem_cons] at h
      rcases h with h | h
      · exact Or.inl (by simp [h])
      · rcases ih h with h' | h'
        · exact Or.inl (List.mem_cons_of_mem _ h')
        · exact Or.inr h'

theorem dictSet_ne_nil {β : Type} (d : Dict β) (k : String) (v : β) :
    dictSet d k v ≠ [] := by
  cases d with
  | nil => simp [dictSet]
  | cons q rest => by_cases h : q.1 = k <;> simp [dictSet, h]

theorem mem_dictDel {β : Type} {d : Dict β} {k : String} {p : String × β}
    (h : p ∈ dictDel d k) : p ∈ d := by
  induction d with
  | nil => simp [dictDel] at h
  | cons q rest ih =>
    by_cases hq : q.1 = k
    · simp only [dictDel, if_pos hq] at h
      exact List.mem_cons_of_mem _ h
    · simp only [dictDel, if_neg hq, List.mem_cons] at h
      rcases h with h | h
      · simp [h]
      · exact List.mem_cons_of_mem _ (ih h)

theorem mem_keys_of_mem {β : Type} {d : Dict β} {p : String × β} (h : p ∈ d) :
    p.1 ∈ d.map Prod.fst :=
  List.mem_map_of_mem Prod.fst h

theorem mem_iff_dictGet {β : Type} {d : Dict β} (hnd : (d.map Prod.fst).Nodup)
    (p : String × β) : p ∈ d ↔ dictGet d p.1 = some p.2 := by
  induction d with
  | nil => simp [dictGet]
  | cons q rest ih =>
    simp only [List.map_cons, List.nodup_cons] at hnd
    by_cases hq : q.1 = p.1
    · simp only [dictGet, if_pos hq, List.mem_cons, Option.some_inj]
      constructor
      · rintro (h | h)
        · rw [h]
        · exact absurd (hq ▸ mem_keys_of_mem h) hnd.1
      · intro h
        exact Or.inl (Prod.ext hq.symm h.symm)
    · simp only [dictGet, if_neg hq, List.mem_cons]
      rw [← ih hnd.2]
      constructor
      · rintro (h | h)
        · exact absurd (congrArg Prod.fst h).symm hq
        · exact h
      · exact Or.inr

theorem two_le_length_of_two_mem {α : Type} {l : List α} {a b : α}
    (ha : a ∈ l) (hb : b ∈ l) (hab : a ≠ b) : 2 ≤ l.length := by
  match l with
  | [] => simp at ha
  | [x] =>
    simp only [List.mem_singleton] at ha hb
    exact absurd (ha.trans hb.symm) hab
  | x :: y :: rest => simp [List.length_cons]

/-- C4: the state transformation and emissions of the disconnect handler are
identical to those of the leave handler for the same session handle: the two
handler bodies are the same function of the state and sid. -/
theorem claim_C4 (st : ServerState) (sid : Handle) :
    handle_disconnect st sid = handle_leave st sid := rfl

/-- C8: a join whose payload is missing the `room` field emits exactly one
`error` event to the caller and leaves the entire server state (registry and
Socket.IO membership) unchanged. -/
theorem claim_C8 (st : ServerState) (sid : Handle) (name : Option String) :
    handle_join st sid none name =
      (st, [Emit.toCaller "error" (Payload.errorP "no room specified")]) := rfl

end App

namespace App

theorem handle_join_some (st : ServerState) (sid : Handle) (r : String)
    (name : Option String) (hr : r ≠ "") :
    handle_join st sid (some r) name =
      ({ ROOMS := dictSet st.ROOMS r
            (dictSet ((dictGet st.ROOMS r).getD []) sid (resolveName name)),
         sioRooms := join_room st.sioRooms r sid },
       [Emit.toCaller "joined"
          (Payload.joinedP ((dictGet st.ROOMS r).getD []) (sid, resolveName name) r),
        Emit.toRoom "new-participant"
          (Payload.newParticipantP sid (resolveName name)) r false]) := by
  simp [handle_join, hr]

theorem handle_signal_fst (st : ServerState) (sid : Handle)
    (toH sig : Option String) : (handle_signal st sid toH sig).1 = st := by
  unfold handle_signal
  split <;> rfl

/-- C6: joining a room name that is absent from the registry returns a
`joined` reply with an empty prior-members list and leaves the registry with
that room containing exactly one member, the joiner (the empty string is not
a room name: the handler rejects it as a missing field). -/
theorem claim_C6 (st : ServerState) (sid : Handle) (r : String) (name : Option String)
    (habs : dictGet st.ROOMS r = none) (hr : r ≠ "") :
    joinedReplies (handle_join st sid (some r) name).2 =
      [Payload.joinedP [] (sid, resolveName name) r] ∧
    dictGet (handle_join st sid (some r) name).1.ROOMS r =
      some [(sid, resolveName name)] := by
  rw [handle_join_some st sid r name hr]
  constructor
  · simp [joinedReplies, habs]
  · simp only [habs, Option.getD_none]
    rw [show dictSet ([] : Dict String) sid (resolveName name)
          = [(sid, resolveName name)] from rfl]
    exact dictGet_dictSet_self st.ROOMS r _

theorem claim_C6_witness :
    joinedReplies (handle_join ⟨[], []⟩ "B" (some "x") none).2 =
      [Payload.joinedP [] ("B", resolveName none) "x"] ∧
    dictGet (handle_join ⟨[], []⟩ "B" (some "x") none).1.ROOMS "x" =
      some [("B", resolveName none)] :=
  claim_C6 ⟨[], []⟩ "B" "x" none rfl (by decide)

/-- C10: a join whose `name` field is absent or empty registers the joiner
with display name "Anonymous", and that name is the one in the `joined`
reply's `you` record and in the `new-participant` broadcast payload. -/
theorem claim_C10 (st : ServerState) (sid : Handle) (r : String) (name : Option String)
    (hr : r ≠ "") (hname : name = none ∨ name = some "") :
    resolveName name = "Anonymous" ∧
    dictGet ((dictGet (handle_join st sid (some r) name).1.ROOMS r).getD []) sid =
      some "Anonymous" ∧
    joinedReplies (handle_join st sid (some r) name).2 =
      [Payload.joinedP ((dictGet st.ROOMS r).getD []) (sid, "Anonymous") r] ∧
    Emit.toRoom "new-participant" (Payload.newParticipantP sid "Anonymous") r false ∈
      (handle_join st sid (some r) name).2 := by
  have hnm : resolveName name = "Anonymous" := by
    rcases hname with h | h <;> simp [h, resolveName]
  rw [handle_join_some st sid r name hr, hnm]
  refine ⟨rfl, ?_, by simp [joinedReplies], by simp⟩
  rw [dictGet_dictSet_self st.ROOMS r _, Option.getD_some,
      dictGet_dictSet_self _ sid _]

theorem claim_C10_witness :
    resolveName (some "") = "Anonymous" ∧
    dictGet ((dictGet (handle_join ⟨[], []⟩ "A" (some "x") (some "")).1.ROOMS "x").getD [])
        "A" = some "Anonymous" ∧
    joinedReplies (handle_join ⟨[], []⟩ "A" (some "x") (some "")).2 =
      [Payload.joinedP ((dictGet (ServerState.mk [] []).ROOMS "x").getD [])
        ("A", "Anonymous") "x"] ∧
    Emit.toRoom "new-participant" (Payload.newParticipantP "A" "Anonymous") "x" false ∈
      (handle_join ⟨[], []⟩ "A" (some "x") (some "")).2 :=
  claim_C10 ⟨[], []⟩ "A" "x" (some "") (by decide) (Or.inr rfl)

end App

namespace App

theorem roomsInv_dictSet {rooms : Dict (Dict String)} {r : String} {v : Dict String}
    (hinv : roomsInv rooms) (hv : v ≠ []) : roomsInv (dictSet rooms r v) := by
  intro p hp
  rcases mem_dictSet hp with h | h
  · exact hinv p h
  · rw [h]; exact hv

theorem roomsInv_dictDel {rooms : Dict (Dict String)} {r : String}
    (hinv : roomsInv rooms) : roomsInv (dictDel rooms r) :=
  fun p hp => hinv p (mem_dictDel hp)

theorem roomsInv_handle_join (st : ServerState) (sid : Handle)
    (room name : Option String) (hinv : roomsInv st.ROOMS) :
    roomsInv (handle_join st sid room name).1.ROOMS := by
  match room with
  | none => exact hinv
  | some r =>
    by_cases hr : r = ""
    · simp only [handle_join, hr, if_pos rfl]
      exact hinv
    · rw [handle_join_some st sid r name hr]
      exact roomsInv_dictSet hinv (dictSet_ne_nil _ sid _)

theorem roomsInv_handle_leave (st : ServerState) (sid : Handle)
    (hinv : roomsInv st.ROOMS) : roomsInv (handle_leave st sid).1.ROOMS := by
  unfold handle_leave
  rcases hfind : findRoomOf st.ROOMS sid with _ | rm
  · exact hinv
  · rcases rm with ⟨r, members⟩
    simp only
    by_cases hlen : (dictDel members sid).length = 0
    · simp only [if_pos hlen]
      exact roomsInv_dictDel hinv
    · simp only [if_neg hlen]
      exact roomsInv_dictSet hinv (fun hh => hlen (by rw [hh]; rfl))

/-- C5: every handler preserves the room-existence invariant — each room key
present in the registry has a non-empty participant dict — and a join with a
valid room name always leaves that room's key present (created on first
member); leave/disconnect delete a room key exactly when it empties, which
the invariant's preservation together with claim C3's characterisation
expresses. -/
theorem claim_C5 (st : ServerState) (hinv : roomsInv st.ROOMS) (sid : Handle)
    (room name toH sig : Option String) :
    roomsInv (handle_join st sid room name).1.ROOMS ∧
    roomsInv (handle_leave st sid).1.ROOMS ∧
    roomsInv (handle_disconnect st sid).1.ROOMS ∧
    roomsInv (handle_signal st sid toH sig).1.ROOMS ∧
    ∀ r : String, r ≠ "" → (dictGet (handle_join st sid (some r) name).1.ROOMS r).isSome := by
  refine ⟨roomsInv_handle_join st sid room name hinv,
          roomsInv_handle_leave st sid hinv,
          roomsInv_handle_leave st sid hinv,
          ?_, ?_⟩
  · rw [handle_signal_fst]
    exact hinv
  · intro r hr
    rw [handle_join_some st sid r name hr]
    simp only
    rw [dictGet_dictSet_self]
    rfl

theorem claim_C5_witness :
    roomsInv (ServerState.mk [("a", [("h", "n")])] []).ROOMS ∧
    (roomsInv (handle_join ⟨[("a", [("h", "n")])], []⟩ "h" (some "b") none).1.ROOMS ∧
     roomsInv (handle_leave ⟨[("a", [("h", "n")])], []⟩ "h").1.ROOMS ∧
     roomsInv (handle_disconnect ⟨[("a", [("h", "n")])], []⟩ "h").1.ROOMS ∧
     roomsInv (handle_signal ⟨[("a", [("h", "n")])], []⟩ "h" none none).1.ROOMS ∧
     ∀ r : String, r ≠ "" →
       (dictGet (handle_join ⟨[("a", [("h", "n")])], []⟩ "h" (some r) none).1.ROOMS r).isSome) :=
  ⟨by decide, claim_C5 ⟨[("a", [("h", "n")])], []⟩ (by decide) "h" (some "b") none none none⟩

end App

namespace App

theorem dictDel_sublist {β : Type} (d : Dict β) (k : String) :
    (dictDel d k).Sublist d := by
  induction d with
  | nil => simp [dictDel]
  | cons q rest ih =>
    by_cases hq : q.1 = k
    · simp only [dictDel, if_pos hq]
      exact List.sublist_cons_self q rest
    · simp only [dictDel, if_neg hq]
      exact List.Sublist.cons₂ q ih

theorem mem_dictSet_key {β : Type} {d : Dict β} {k : String} {v : β} {p : String × β}
    (hnd : (d.map Prod.fst).Nodup) (hp : p ∈ dictSet d k v) (hk : p.1 = k) :
    p = (k, v) := by
  induction d with
  | nil => simpa [dictSet] using hp
  | cons q rest ih =>
    simp only [List.map_cons, List.nodup_cons] at hnd
    by_cases hq : q.1 = k
    · simp only [dictSet, if_pos hq, List.mem_cons] at hp
      rcases hp with hp | hp
      · exact hp
      · have h1 : p.1 ∈ rest.map Prod.fst := mem_keys_of_mem hp
        rw [hk, ← hq] at h1
        exact absurd h1 hnd.1
    · simp only [dictSet, if_neg hq, List.mem_cons] at hp
      rcases hp with hp | hp
      · have h1 : p.1 = q.1 := by rw [hp]
        rw [h1] at hk
        exact absurd hk hq
      · exact ih hnd.2 hp

theorem room_unique {rooms : Dict (Dict String)} {sid : Handle}
    (hone : atMostOneRoom rooms sid) {p q : String × Dict String}
    (hp : p ∈ rooms) (hq : q ∈ rooms)
    (hps : (dictGet p.2 sid).isSome) (hqs : (dictGet q.2 sid).isSome) : p = q := by
  by_contra hne
  have h2 : 2 ≤ (rooms.filter (fun x => (dictGet x.2 sid).isSome)).length :=
    two_le_length_of_two_mem (List.mem_filter.2 ⟨hp, hps⟩)
      (List.mem_filter.2 ⟨hq, hqs⟩) hne
  unfold atMostOneRoom at hone
  omega

theorem findRoomOf_eq_none {rooms : Dict (Dict String)} {sid : Handle} :
    findRoomOf rooms sid = none ↔ ∀ p ∈ rooms, dictGet p.2 sid = none := by
  unfold findRoomOf
  rw [List.find?_eq_none]
  constructor
  · intro h p hp
    have := h p hp
    simpa [Option.not_isSome_iff_eq_none] using this
  · intro h p hp
    simp [h p hp]

theorem findRoomOf_eq_some {rooms : Dict (Dict String)} {sid : Handle}
    {r : String} {members : Dict String}
    (h : findRoomOf rooms sid = some (r, members)) :
    (r, members) ∈ rooms ∧ (dictGet members sid).isSome := by
  unfold findRoomOf at h
  exact ⟨List.mem_of_find?_eq_some h, by simpa using List.find?_some h⟩

theorem handle_leave_noop (st : ServerState) (sid : Handle)
    (h : findRoomOf st.ROOMS sid = none) : handle_leave st sid = (st, []) := by
  unfold handle_leave
  rw [h]

theorem handle_leave_found (st : ServerState) (sid : Handle) (r : String)
    (members : Dict String) (hfind : findRoomOf st.ROOMS sid = some (r, members)) :
    (handle_leave st sid).1.ROOMS =
      if (dictDel members sid).length = 0 then dictDel st.ROOMS r
      else dictSet st.ROOMS r (dictDel members sid) := by
  unfold handle_leave
  rw [hfind]

/-- C3: leave and disconnect remove the calling handle from the (at most one)
room containing it, deleting the room key exactly when it empties and leaving
every other room key untouched; when no room contains the handle the call is
an exact no-op with no emissions (no error), so a second leave or disconnect
after a successful one performs no action. -/
theorem claim_C3 (st : ServerState) (sid : Handle)
    (hnd : (st.ROOMS.map Prod.fst).Nodup)
    (hmem : ∀ p ∈ st.ROOMS, (p.2.map Prod.fst).Nodup)
    (hone : atMostOneRoom st.ROOMS sid) :
    (findRoomOf st.ROOMS sid = none →
       handle_leave st sid = (st, []) ∧ handle_disconnect st sid = (st, [])) ∧
    ∀ r : String, ∀ members : Dict String,
      findRoomOf st.ROOMS sid = some (r, members) →
        findRoomOf (handle_leave st sid).1.ROOMS sid = none ∧
        (dictGet (handle_leave st sid).1.ROOMS r = none ↔ dictDel members sid = []) ∧
        (∀ r', r' ≠ r →
           dictGet (handle_leave st sid).1.ROOMS r' = dictGet st.ROOMS r') ∧
        handle_leave (handle_leave st sid).1 sid = ((handle_leave st sid).1, []) ∧
        handle_disconnect (handle_leave st sid).1 sid = ((handle_leave st sid).1, []) := by
  constructor
  · intro h
    exact ⟨handle_leave_noop st sid h, handle_leave_noop st sid h⟩
  · intro r members hfind
    obtain ⟨hmem_entry, hsid⟩ := findRoomOf_eq_some hfind
    have hmnd : (members.map Prod.fst).Nodup := hmem _ hmem_entry
    have hdel : dictGet (dictDel members sid) sid = none :=
      dictGet_dictDel_self members sid hmnd
    have hrooms := handle_leave_found st sid r members hfind
    have hnone : findRoomOf (handle_leave st sid).1.ROOMS sid = none := by
      rw [findRoomOf_eq_none]
      intro p hp
      rw [hrooms] at hp
      by_cases hlen : (dictDel members sid).length = 0
      · rw [if_pos hlen] at hp
        by_contra hps
        rw [← Option.not_isSome_iff_eq_none, not_not] at hps
        have hpq : p = (r, members) :=
          room_unique hone (mem_dictDel hp) hmem_entry hps hsid
        have hks : ((dictDel st.ROOMS r).map Prod.fst).Nodup :=
          ((dictDel_sublist st.ROOMS r).map Prod.fst).nodup hnd
        have := (mem_iff_dictGet hks p).1 hp
        rw [hpq] at this
        rw [dictGet_dictDel_self st.ROOMS r hnd] at this
        exact Option.noConfusion this
      · rw [if_neg hlen] at hp
        by_contra hps
        rw [← Option.not_isSome_iff_eq_none, not_not] at hps
        rcases mem_dictSet hp with hpold | hpnew
        · have hpq : p = (r, members) := room_unique hone hpold hmem_entry hps hsid
          have hpq' : p = (r, dictDel members sid) := mem_dictSet_key hnd hp (by rw [hpq])
          have : members = dictDel members sid := by
            have := hpq.symm.trans hpq'
            exact congrArg Prod.snd this
          rw [← this] at hdel
          rw [hdel] at hsid
          simp at hsid
        · rw [hpnew] at hps
          simp only at hps
          rw [hdel] at hps
          simp at hps
    refine ⟨hnone, ?_, ?_, ?_, ?_⟩
    · rw [hrooms]
      by_cases hlen : (dictDel members sid).length = 0
      · rw [if_pos hlen, dictGet_dictDel_self st.ROOMS r hnd]
        simp [List.length_eq_zero] at hlen
        simp [hlen]
      · rw [if_neg hlen, dictGet_dictSet_self]
        simp only [List.length_eq_zero] at hlen
        simp [hlen]
    · intro r' hr'
      rw [hrooms]
      by_cases hlen : (dictDel members sid).length = 0
      · rw [if_pos hlen]
        exact dictGet_dictDel_ne st.ROOMS r r' hr'
      · rw [if_neg hlen]
        exact dictGet_dictSet_ne st.ROOMS r r' _ hr'
    · exact handle_leave_noop _ sid hnone
    · exact handle_leave_noop _ sid hnone

theorem claim_C3_witness :
    ((([("a", [("h", "n")]), ("b", [("g", "m")])] : Dict (Dict String)).map
        Prod.fst).Nodup ∧
     (∀ p ∈ ([("a", [("h", "n")]), ("b", [("g", "m")])] : Dict (Dict String)),
        (p.2.map Prod.fst).Nodup) ∧
     atMostOneRoom ([("a", [("h", "n")]), ("b", [("g", "m")])] : Dict (Dict String)) "h") ∧
    ∀ r : String, ∀ members : Dict String,
      findRoomOf (ServerState.mk [("a", [("h", "n")]), ("b", [("g", "m")])] []).ROOMS "h"
          = some (r, members) →
        findRoomOf (handle_leave ⟨[("a", [("h", "n")]), ("b", [("g", "m")])], []⟩ "h").1.ROOMS "h"
          = none ∧
        (dictGet (handle_leave ⟨[("a", [("h", "n")]), ("b", [("g", "m")])], []⟩ "h").1.ROOMS r
           = none ↔ dictDel members "h" = []) ∧
        (∀ r', r' ≠ r →
           dictGet (handle_leave ⟨[("a", [("h", "n")]), ("b", [("g", "m")])], []⟩ "h").1.ROOMS r'
             = dictGet (ServerState.mk [("a", [("h", "n")]), ("b", [("g", "m")])] []).ROOMS r') ∧
        handle_leave (handle_leave ⟨[("a", [("h", "n")]), ("b", [("g", "m")])], []⟩ "h").1 "h"
          = ((handle_leave ⟨[("a", [("h", "n")]), ("b", [("g", "m")])], []⟩ "h").1, []) ∧
        handle_disconnect (handle_leave ⟨[("a", [("h", "n")]), ("b", [("g", "m")])], []⟩ "h").1 "h"
          = ((handle_leave ⟨[("a", [("h", "n")]), ("b", [("g", "m")])], []⟩ "h").1, []) :=
  ⟨⟨by decide, by decide, by decide⟩,
   (claim_C3 ⟨[("a", [("h", "n")]), ("b", [("g", "m")])], []⟩ "h"
     (by decide) (by decide) (by decide)).2⟩

end App

namespace App

theorem dictGet_isSome_of_mem {β : Type} {d : Dict β} {p : String × β}
    (h : p ∈ d) : (dictGet d p.1).isSome := by
  induction d with
  | nil => simp at h
  | cons q rest ih =>
    rcases List.mem_cons.1 h with h' | h'
    · rw [h']
      simp [dictGet]
    · by_cases hq : q.1 = p.1
      · simp [dictGet, hq]
      · simp only [dictGet, if_neg hq]
        exact ih h'

/-- C1 counterexample: from a state where handle "h" is already registered in
room "r", a second join by "h" to "r" returns a `joined` reply whose peers
list contains the joining handle "h" itself — refuting "it never contains the
joining handle itself". -/
theorem claim_C1_cex :
    ((joinedReplies
        (handle_join ⟨[("r", [("h", "n")])], []⟩ "h" (some "r") (some "n2")).2).map
      peersOf) = [[("h", "n")]] ∧
    "h" ∈ ([("h", "n")].map Prod.fst) := by
  constructor
  · rfl
  · simp

/-- C1 (amended): the `joined` reply's members list is exactly the room's
registered participants immediately before the join, each with their display
name, and it contains the joining handle only if that handle was already
registered in the room (so never on a first join); in the two-party scenario,
B's reply lists exactly A and A receives exactly one `new-participant` event
naming B. -/
theorem claim_C1 (st : ServerState) (sid : Handle) (r : String) (name : Option String)
    (hr : r ≠ "") :
    joinedReplies (handle_join st sid (some r) name).2 =
      [Payload.joinedP ((dictGet st.ROOMS r).getD []) (sid, resolveName name) r] ∧
    (dictGet ((dictGet st.ROOMS r).getD []) sid = none →
       ∀ n : String, (sid, n) ∉ (dictGet st.ROOMS r).getD []) ∧
    (joinedReplies
        (handle_join
          (handle_join ⟨[], [("A", ["A"]), ("B", ["B"])]⟩ "A" (some "x") (some "alice")).1
          "B" (some "x") (some "bob")).2 =
      [Payload.joinedP [("A", "alice")] ("B", "bob") "x"] ∧
     deliveredTo
        (handle_join
          (handle_join ⟨[], [("A", ["A"]), ("B", ["B"])]⟩ "A" (some "x") (some "alice")).1
          "B" (some "x") (some "bob")).1
        "B"
        (handle_join
          (handle_join ⟨[], [("A", ["A"]), ("B", ["B"])]⟩ "A" (some "x") (some "alice")).1
          "B" (some "x") (some "bob")).2
        "A" =
      [Emit.toRoom "new-participant" (Payload.newParticipantP "B" "bob") "x" false]) := by
  refine ⟨?_, ?_, by decide, by decide⟩
  · rw [handle_join_some st sid r name hr]
    simp [joinedReplies]
  · intro hno n hmem
    have := dictGet_isSome_of_mem hmem
    rw [hno] at this
    simp at this

theorem claim_C1_witness :
    (("x" : String) ≠ "") ∧
    joinedReplies (handle_join ⟨[], []⟩ "A" (some "x") none).2 =
      [Payload.joinedP ((dictGet (ServerState.mk [] []).ROOMS "x").getD [])
        ("A", resolveName none) "x"] :=
  ⟨by decide, (claim_C1 ⟨[], []⟩ "A" "x" none (by decide)).1⟩

/-- C2 counterexample: starting from the empty registry, handle "h" joins room
"a" and then room "b"; afterwards "h" is registered in both rooms, so it is
not a member of exactly one room — `handle_join` never removes the joiner
from a previously joined room. -/
theorem claim_C2_cex :
    roomsContaining
      (handle_join (handle_join ⟨[], []⟩ "h" (some "a") (some "n")).1
        "h" (some "b") (some "n")).1.ROOMS "h" = ["a", "b"] ∧
    memberOf
      (handle_join (handle_join ⟨[], []⟩ "h" (some "a") (some "n")).1
        "h" (some "b") (some "n")).1.ROOMS "h" "a" = true ∧
    memberOf
      (handle_join (handle_join ⟨[], []⟩ "h" (some "a") (some "n")).1
        "h" (some "b") (some "n")).1.ROOMS "h" "b" = true := by
  refine ⟨rfl, rfl, rfl⟩

/-- C2 (amended): a handle may occur in several rooms at once: when a
participant already registered in room `rA` joins a room `rB`, it is
afterwards a member of `rB` and still a member of `rA` (join performs no
removal from other rooms); the at-most-one-room invariant does not hold for
the registry. -/
theorem claim_C2 (st : ServerState) (sid : Handle) (rA rB : String)
    (name : Option String) (hA : memberOf st.ROOMS sid rA = true) (hB : rB ≠ "") :
    memberOf (handle_join st sid (some rB) name).1.ROOMS sid rA = true ∧
    memberOf (handle_join st sid (some rB) name).1.ROOMS sid rB = true := by
  rw [handle_join_some st sid rB name hB]
  constructor
  · by_cases hab : rA = rB
    · subst hab
      simp [memberOf, dictGet_dictSet_self]
    · unfold memberOf at hA ⊢
      rw [dictGet_dictSet_ne st.ROOMS rB rA _ hab]
      exact hA
  · simp [memberOf, dictGet_dictSet_self]

theorem claim_C2_witness :
    memberOf ([("a", [("h", "n")])] : Dict (Dict String)) "h" "a" = true ∧
    memberOf (handle_join ⟨[("a", [("h", "n")])], []⟩ "h" (some "b") none).1.ROOMS
      "h" "a" = true ∧
    memberOf (handle_join ⟨[("a", [("h", "n")])], []⟩ "h" (some "b") none).1.ROOMS
      "h" "b" = true :=
  ⟨by decide,
   claim_C2 ⟨[("a", [("h", "n")])], []⟩ "h" "a" "b" none (by decide) (by decide)⟩

end App

namespace App

theorem handle_signal_live (st : ServerState) (sid t s' : Handle)
    (ht : t ≠ "") (hs : s' ≠ "") :
    handle_signal st sid (some t) (some s') =
      (st, [Emit.toRoom "signal" (Payload.signalP sid s') t true]) := by
  unfold handle_signal falsyStr
  simp [ht, hs]

/-- C7: the signal handler leaves all server state unchanged in every case; a
falsy target or payload produces no emission at all; when the target's
personal Socket.IO room is live (containing exactly the target connection) the
payload, tagged with the sender's sid, is delivered to the target and to no
other connection (the sender included), and when the target does not resolve
(no such Socket.IO room) nothing is delivered and no error is emitted. -/
theorem claim_C7 (st : ServerState) (sid : Handle) (toH sig : Option String) :
    (handle_signal st sid toH sig).1 = st ∧
    (falsyStr toH = true ∨ falsyStr sig = true →
       (handle_signal st sid toH sig).2 = []) ∧
    ∀ t s' : String, toH = some t → sig = some s' → t ≠ "" → s' ≠ "" →
      (sioMembers st.sioRooms t = [t] →
         ∀ h : Handle,
           deliveredTo (handle_signal st sid toH sig).1 sid
               (handle_signal st sid toH sig).2 h =
             if h = t then [Emit.toRoom "signal" (Payload.signalP sid s') t true]
             else []) ∧
      (sioMembers st.sioRooms t = [] →
         ∀ h : Handle,
           deliveredTo (handle_signal st sid toH sig).1 sid
               (handle_signal st sid toH sig).2 h = []) := by
  refine ⟨handle_signal_fst st sid toH sig, ?_, ?_⟩
  · intro h
    unfold handle_signal
    rcases h with h | h <;> simp [h]
  · intro t s' ht hs ht' hs'
    subst ht hs
    rw [handle_signal_live st sid t s' ht' hs']
    constructor
    · intro hlive h
      by_cases hht : h = t
      · subst hht
        simp [deliveredTo, receives, hlive]
      · simp [deliveredTo, receives, hlive, hht]
    · intro hdead h
      simp [deliveredTo, receives, hdead]

theorem claim_C7_witness :
    (handle_signal ⟨[], [("t", ["t"])]⟩ "s" (some "t") (some "z")).1 =
      ServerState.mk [] [("t", ["t"])] ∧
    deliveredTo (handle_signal ⟨[], [("t", ["t"])]⟩ "s" (some "t") (some "z")).1 "s"
        (handle_signal ⟨[], [("t", ["t"])]⟩ "s" (some "t") (some "z")).2 "t" =
      [Emit.toRoom "signal" (Payload.signalP "s" "z") "t" true] ∧
    deliveredTo (handle_signal ⟨[], [("t", ["t"])]⟩ "s" (some "t") (some "z")).1 "s"
        (handle_signal ⟨[], [("t", ["t"])]⟩ "s" (some "t") (some "z")).2 "s" =
      [] := by
  have C := claim_C7 ⟨[], [("t", ["t"])]⟩ "s" (some "t") (some "z")
  have L := (C.2.2 "t" "z" rfl rfl (by decide) (by decide)).1 (by decide)
  refine ⟨C.1, ?_, ?_⟩
  · have := L "t"
    simpa using this
  · have := L "s"
    simpa using this

end App

namespace App

theorem foldl_room_append (cap : Nat) :
    ∀ (cs l : List Chunk), l.length ≤ cap →
      cs.foldl (room_append cap) l = (l ++ cs).drop (l.length + cs.length - cap) := by
  intro cs
  induction cs with
  | nil =>
    intro l hl
    simp [Nat.sub_eq_zero_of_le hl]
  | cons c cs ih =>
    intro l hl
    have hlen1 : (room_append cap l c).length = l.length + 1 - (l.length + 1 - cap) := by
      unfold room_append
      simp [List.length_drop, List.length_append]
    have hle : (room_append cap l c).length ≤ cap := by omega
    rw [List.foldl_cons, ih (room_append cap l c) hle]
    have h1 : room_append cap l c ++ cs = (l ++ [c] ++ cs).drop (l.length + 1 - cap) := by
      unfold room_append
      conv_rhs => rw [List.drop_append_eq_append_drop]
      have h0 : l.length + 1 - cap - (l ++ [c]).length = 0 := by
        simp [List.length_append]
      rw [h0, List.drop_zero]
    rw [h1, List.drop_drop]
    have h2 : l ++ [c] ++ cs = l ++ c :: cs := by
      rw [List.append_assoc, List.singleton_append]
    rw [h2]
    congr 1
    simp only [List.length_cons]
    omega

theorem store_room_list (cap : Nat) (room : String) :
    ∀ (cs : List Chunk) (store : Dict (List Chunk)),
      (dictGet (append_all cap store room cs) room).getD [] =
        cs.foldl (room_append cap) ((dictGet store room).getD []) := by
  intro cs
  induction cs with
  | nil =>
    intro store
    simp [append_all]
  | cons c cs ih =>
    intro store
    show (dictGet (append_all cap (chunk_append cap store room c) room cs) room).getD []
          = _
    rw [ih (chunk_append cap store room c)]
    unfold chunk_append
    rw [dictGet_dictSet_self]
    rfl

/-- C9: with per-room cap N, appending N+1 chunks to one room of an empty
store leaves exactly the newest N chunks for that room, in their original
relative order (the final list is the input sequence minus its first
element), so the oldest appended chunk is absent. -/
theorem claim_C9 (N : Nat) (room : String) (cs : List Chunk)
    (hlen : cs.length = N + 1) :
    (dictGet (append_all N [] room cs) room).getD [] = cs.drop 1 ∧
    ((dictGet (append_all N [] room cs) room).getD []).length = N ∧
    (cs.Nodup → ∀ c0 : Chunk, cs.head? = some c0 →
       c0 ∉ (dictGet (append_all N [] room cs) room).getD []) := by
  have h1 : (dictGet (append_all N [] room cs) room).getD [] = cs.drop 1 := by
    rw [store_room_list N room cs []]
    have : dictGet ([] : Dict (List Chunk)) room = none := rfl
    rw [this]
    simp only [Option.getD_none]
    rw [foldl_room_append N cs [] (by simp)]
    simp only [List.nil_append, List.length_nil, Nat.zero_add]
    congr 1
    omega
  refine ⟨h1, ?_, ?_⟩
  · rw [h1, List.length_drop]
    omega
  · intro hnd c0 hc0
    rw [h1]
    match cs, hnd, hc0 with
    | c :: rest, hnd, hc0 =>
      simp only [List.head?_cons, Option.some_inj] at hc0
      subst hc0
      simp only [List.drop_succ_cons, List.drop_zero]
      exact (List.nodup_cons.1 hnd).1

theorem claim_C9_witness :
    ([(⟨1, "u", "c", "m", []⟩ : Chunk), ⟨2, "u", "c", "m", []⟩].length = 1 + 1) ∧
    (dictGet (append_all 1 [] "r"
        [(⟨1, "u", "c", "m", []⟩ : Chunk), ⟨2, "u", "c", "m", []⟩]) "r").getD [] =
      [(⟨2, "u", "c", "m", []⟩ : Chunk)] ∧
    (⟨1, "u", "c", "m", []⟩ : Chunk) ∉
      (dictGet (append_all 1 [] "r"
        [(⟨1, "u", "c", "m", []⟩ : Chunk), ⟨2, "u", "c", "m", []⟩]) "r").getD [] := by
  have C := claim_C9 1 "r" [(⟨1, "u", "c", "m", []⟩ : Chunk), ⟨2, "u", "c", "m", []⟩] rfl
  exact ⟨rfl, C.1.trans rfl, C.2.2 (by decide) ⟨1, "u", "c", "m", []⟩ rfl⟩

end App
